import Mathlib

/-!
Verification of `pkg/imgpkg/image/dir_image.go` (the OCI-image-to-directory
materializer) against its design specification.

Shallow embedding conventions:

* Filesystem paths are absolute and represented as their lists of path
  components (`Path := List String`); the destination directory `dirPath` is a
  parameter `root : Path`.  The host is a Unix host, so the canonical
  separator is `/` and `filepath.Join`, `filepath.Dir`, `filepath.Base` and
  `filepath.Clean` act lexically on component lists: `Dir` is `dropLast`,
  `Base` is the last component (`"/"` for the root), and `Clean` is the
  left fold `cleanStep` dropping empty and `"."` components and resolving
  `".."` by popping (never above `/`, matching `filepath.Clean` on absolute
  paths).
* The on-disk state is a map from absolute paths to nodes (`Tree`, an
  association list where the most recent binding wins).  `os.RemoveAll`,
  `os.MkdirAll`, `os.Lstat` and `os.OpenFile(O_RDWR|O_CREATE|O_TRUNC)`
  followed by `io.Copy`/`Close` are modelled by `removeAllT`, `mkdirAll`,
  `getNode` and `openFileCT`.  `os.Chown` and `os.Chtimes` always succeed and
  do not touch the fields we track, so they are modelled as no-ops; the
  progress logger is also a no-op.  `os.RemoveAll` of an absent path succeeds
  (as in Go); environment-caused removal failures are modelled by a
  predicate `fail : Path → Bool` injected into `removeAllR`.
* Tar headers carry the fields the code reads: `Name`, `Typeflag`,
  `FileInfo().Mode()` (as a `Nat`), and the entry's byte stream (as a
  `String`).  Go string functions are given structural models on `List Char`
  (`splitGo` for `strings.Split`, `List.isPrefixOf` for `strings.HasPrefix`)
  so that all definitions reduce by computation.
-/

namespace Imgpkg

abbrev Path := List String

/-- Tar type flag constants from `archive/tar`. -/
def typeReg : Char := '0'

def typeRegA : Char := Char.ofNat 0

def typeLink : Char := '1'

def typeSymlink : Char := '2'

def typeChar : Char := '3'

def typeBlock : Char := '4'

def typeDir : Char := '5'

def typeFifo : Char := '6'

/-- One tar entry: name, type flag, `FileInfo().Mode()` bits, and content. -/
structure Header where
  name : String
  typeflag : Char
  mode : Nat
  content : String
deriving DecidableEq

/-- An object on disk: a directory, or a regular file with content and
permission bits.  The extractor never creates links or device nodes. -/
inductive Node
  | dir
  | file (content : String) (mode : Nat)
deriving DecidableEq

/-- The filesystem: map from absolute paths to nodes, as an association list
where the first binding for a key wins. -/
abbrev Tree := List (Path × Node)

def getNode : Tree → Path → Option Node
  | [], _ => none
  | (q, n) :: t, p => if q = p then some n else getNode t p

def setNode (t : Tree) (p : Path) (n : Node) : Tree := (p, n) :: t

/-- `os.RemoveAll p`: delete the node at `p` and everything below it. -/
def removeAllT (t : Tree) (r : Path) : Tree :=
  t.filter (fun e => ! r.isPrefixOf e.1)

/-- `os.RemoveAll` with injected environment failures.  On an absent path Go
returns `nil`, which is the `fail r = false` case with nothing to filter. -/
def removeAllR (fail : Path → Bool) (t : Tree) (r : Path) : Except Unit Tree :=
  if fail r then .error () else .ok (removeAllT t r)

/-- The nonempty prefixes of a path, shortest first: the chain of directories
`os.MkdirAll` walks. -/
def ppfx (p : Path) : List Path :=
  (List.range p.length).map (fun i => p.take (i + 1))

def isFileAt (t : Tree) (q : Path) : Bool :=
  match getNode t q with
  | some (.file _ _) => true
  | _ => false

def mkdirChain (t : Tree) : List Path → Tree
  | [] => t
  | q :: qs => mkdirChain (if getNode t q = none then setNode t q .dir else t) qs

/-- `os.MkdirAll p 0777`: create every missing directory on the chain down to
`p`; fails when a regular file occupies any component of the chain. -/
def mkdirAll (t : Tree) (p : Path) : Except Unit Tree :=
  if (ppfx p).any (isFileAt t) then .error ()
  else .ok (mkdirChain t (ppfx p))

/-- `os.OpenFile(path, O_RDWR|O_CREATE|O_TRUNC, perm)` followed by `io.Copy`
and `Close`: truncating an existing file keeps its old permission bits (the
`perm` argument only applies at creation); opening a directory, or creating
under a missing or non-directory parent, fails. -/
def openFileCT (t : Tree) (p : Path) (content : String) (perm : Nat) :
    Except Unit Tree :=
  match getNode t p with
  | some .dir => .error ()
  | some (.file _ m) => .ok (setNode t p (.file content m))
  | none =>
    if p = [] then .error ()
    else if p.dropLast = [] ∨ getNode t p.dropLast = some .dir then
      .ok (setNode t p (.file content perm))
    else .error ()

/-- Structural model of `strings.Split` on a single-character separator:
`splitGo sep cs` never returns `[]` and `splitGo sep [] = [[]]`, matching Go
(`strings.Split("", sep) = [""]`). -/
def splitGo (sep : Char) : List Char → List (List Char)
  | [] => [[]]
  | c :: cs =>
    match splitGo sep cs with
    | [] => [[]]
    | r :: rs => if c = sep then [] :: r :: rs else (c :: r) :: rs

/-- The component sequence fed to `filepath.Join` by `hydrateFilepath`: split
on `\` when one is present, else on `/`; components from the `\` branch may
still contain `/`, which `filepath.Join`/`Clean` treats as a separator, hence
the second split. -/
def rawComponents (s : String) : List String :=
  ((if s.data.any (fun c => c = '\\') then splitGo '\\' s.data
    else splitGo '/' s.data).flatMap (fun c => splitGo '/' c)).map
    (fun l => String.mk l)

/-- One step of `filepath.Clean` on an absolute path, acting on the stack of
components accumulated so far: empty and `"."` components vanish, `".."` pops
(and is dropped at `/`), anything else is pushed. -/
def cleanStep (acc : List String) (c : String) : List String :=
  if c = "" ∨ c = "." then acc
  else if c = ".." then acc.dropLast
  else acc ++ [c]

def cleanAbs (cs : List String) : Path := cs.foldl cleanStep []

/-- `hydrateFilepath` from `dir_image.go`: split the archive name on whichever
separator it uses, rejoin with the host separator, and join the result onto
the destination root.  `filepath.Join(i.dirPath, lPath)` cleans the combined
absolute path, which is the single left fold below. -/
def hydrateFilepath (root : Path) (name : String) : Path :=
  cleanAbs (root ++ rawComponents name)

/-- `filepath.Base` of the rendered absolute path: last component, `"/"` at
the root. -/
def baseOf (p : Path) : String := (p.getLast?).getD "/"

/-- Render a component path the way the Go code sees it as a string (the
destination root is absolute, so every hydrated path starts with `/`). -/
def joinComps : List String → List Char
  | [] => []
  | [c] => c.data
  | c :: cs => c.data ++ '/' :: joinComps cs

def pathStr (p : Path) : String := String.mk ('/' :: joinComps p)

/-- `strings.HasPrefix(base, ".wh.")`. -/
def hasWhMarker (s : String) : Bool :=
  (String.data ".wh.").isPrefixOf s.data

/-- The strict prefixes of a path: the chain of parent directories
`inWhiteoutDir` walks with `filepath.Dir`, ending at `/` (the empty list). -/
def parentChain : Path → List Path
  | [] => []
  | c :: cs => [] :: (parentChain cs).map (fun q => c :: q)

/-- `inWhiteoutDir` from `dir_image.go`: walk the parent directories of
`file` and report whether any of them (rendered as a path string, which is
how the Go code keys the map) is recorded in the deletion map.  The source
loop visits the parents longest-first and exits early; `List.any` over the
same set of parents computes the same boolean. -/
def inWhiteoutDir (fm : List String) (p : Path) : Bool :=
  (parentChain p).any (fun d => fm.any (fun k => k = pathStr d))

/-- The path removed for a whiteout entry:
`filepath.Join(filepath.Dir(path), strings.TrimPrefix(base, ".wh."))`. -/
def whTargetOf (root : Path) (hdr : Header) : Path :=
  let path := hydrateFilepath root hdr.name
  cleanAbs (path.dropLast ++ [String.mk ((baseOf path).data.drop 4)])

/-- Replicate the owner permission bits into group and other unless the
stored mode already grants some group/other bit (`extractTarEntry`). -/
def permModeOf (mode : Nat) : Nat :=
  let userPermission := mode &&& 0o700
  let perm := userPermission ||| userPermission >>> 3 ||| userPermission >>> 6
  if mode &&& 0o077 > 0 then mode else perm

/-- `extractTarEntry`: compute the final mode, `MkdirAll` the parent, then
dispatch on the type flag.  Directories are accepted with no further work;
regular files are created/truncated and filled; links and device nodes are
silently skipped; anything else is an unsupported-entry error.  The returned
tree is the state reached when the error (if any) occurred; `os.Lchown` and
`lchtimes` always succeed here and change nothing we track. -/
def extractTarEntry (root : Path) (hdr : Header) (t : Tree) :
    Tree × Option String :=
  let path := hydrateFilepath root hdr.name
  let permMode := permModeOf hdr.mode
  match mkdirAll t path.dropLast with
  | .error _ => (t, some "creating parent directories")
  | .ok t1 =>
    if hdr.typeflag = typeDir then (t1, none)
    else if hdr.typeflag = typeReg ∨ hdr.typeflag = typeRegA then
      match openFileCT t1 path hdr.content permMode with
      | .error _ => (t1, some "opening file")
      | .ok t2 => (t2, none)
    else if hdr.typeflag = typeLink ∨ hdr.typeflag = typeSymlink then (t1, none)
    else if hdr.typeflag = typeChar ∨ hdr.typeflag = typeBlock ∨
        hdr.typeflag = typeFifo then (t1, none)
    else (t1, some ("Unsupported tar entry type '" ++ String.mk [hdr.typeflag] ++
      "' for file '" ++ hdr.name ++ "'"))

/-- Result of draining one layer stream: the seen-names/whiteout map, the
tree, and the error that aborted the loop (if any). -/
structure LRes where
  fm : List String
  tree : Tree
  err : Option String
deriving DecidableEq

/-- `writeLayer`: the per-entry loop over one layer's tar stream.  Mirrors
the source: hydrate the path; a `.wh.`-prefixed basename is a whiteout whose
live counterpart is removed (`return nil` on a removal failure, which ends
the layer without an error); entries under a whited-out parent are skipped;
an existing node of a different shape is removed first (a root placeholder
`.` entry is skipped); the name is recorded and the entry extracted. -/
def writeEntries (fail : Path → Bool) (root : Path) :
    List Header → List String → Tree → LRes
  | [], fm, t => ⟨fm, t, none⟩
  | hdr :: rest, fm, t =>
    let path := hydrateFilepath root hdr.name
    let base := baseOf path
    if hasWhMarker base then
      match removeAllR fail t (whTargetOf root hdr) with
      | .error _ => ⟨fm, t, none⟩
      | .ok t1 => writeEntries fail root rest (base :: fm) t1
    else if inWhiteoutDir fm path then
      writeEntries fail root rest fm t
    else
      let cont := fun (t' : Tree) =>
        let r := extractTarEntry root hdr t'
        match r.2 with
        | some e => (⟨hdr.name :: fm, r.1, some e⟩ : LRes)
        | none => writeEntries fail root rest (hdr.name :: fm) r.1
      match getNode t path with
      | some n =>
        if n = Node.dir ∧ hdr.name = "." then
          writeEntries fail root rest fm t
        else if ¬ (n = Node.dir ∧ hdr.typeflag = typeDir) then
          match removeAllR fail t path with
          | .error _ => ⟨fm, t, some "removing existing path"⟩
          | .ok t1 => cont t1
        else cont t
      | none => cont t

/-- The layer loop of `AsDirectory`, already in traversal order (the caller
reverses the stack): stop at the first failing layer. -/
def runLayers (fail : Path → Bool) (root : Path) :
    List (List Header) → List String → Tree → Tree × Option String
  | [], _, t => (t, none)
  | l :: ls, fm, t =>
    let r := writeEntries fail root l fm t
    match r.err with
    | some e => (r.tree, some e)
    | none => runLayers fail root ls r.fm r.tree

/-- `AsDirectory`: wipe and recreate the destination root, then process the
layer stack newest-first with a shared seen/whiteout map that starts empty.
`layers` is given base-to-top (oldest first), as the image source supplies
it; digest retrieval and progress logging are no-ops here. -/
def asDirectory (fail : Path → Bool) (root : Path)
    (layers : List (List Header)) (t : Tree) : Tree × Option String :=
  match removeAllR fail t root with
  | .error _ => (t, some "Removing output directory")
  | .ok t0 =>
    match mkdirAll t0 root with
    | .error _ => (t0, some "Creating output directory")
    | .ok t1 => runLayers fail root layers.reverse [] t1

/-- No injected environment failures: every `os.RemoveAll` succeeds. -/
def noFail : Path → Bool := fun _ => false

/-! ### Two-run simulation

The destination subtree is insensitive to the state outside it, provided
every entry (and every whiteout target) resolves strictly inside the
destination root.  `Agree` says two filesystem states coincide at and below
the root; `AncDirs` says the root's proper ancestors are directories (which
the initial `MkdirAll` of the root establishes). -/

def Agree (root : Path) (t1 t2 : Tree) : Prop :=
  ∀ p, root <+: p → getNode t1 p = getNode t2 p

def AncDirs (root : Path) (t : Tree) : Prop :=
  ∀ q, q <+: root → q ≠ root → q ≠ [] → getNode t q = some Node.dir

/-- An entry whose hydrated path lies strictly inside the destination root,
and whose whiteout target (when it is a whiteout) lies inside the root. -/
def GoodEntry (root : Path) (hdr : Header) : Prop :=
  root <+: hydrateFilepath root hdr.name ∧
  hydrateFilepath root hdr.name ≠ root ∧
  (hasWhMarker (baseOf (hydrateFilepath root hdr.name)) = true →
    root <+: whTargetOf root hdr)

instance (root : Path) (hdr : Header) : Decidable (GoodEntry root hdr) := by
  unfold GoodEntry
  infer_instance

/-! ### Basic facts about the filesystem operations -/

theorem getNode_setNode (t : Tree) (p : Path) (n : Node) (q : Path) :
    getNode (setNode t p n) q = if p = q then some n else getNode t q := by
  simp [setNode, getNode]

theorem getNode_removeAllT (t : Tree) (r p : Path) :
    getNode (removeAllT t r) p = if r <+: p then none else getNode t p := by
  induction t with
  | nil => simp [removeAllT, getNode]
  | cons e t ih =>
    obtain ⟨q, n⟩ := e
    by_cases hr : r <+: q
    · have hb : r.isPrefixOf q = true := by
        simpa [List.isPrefixOf_iff_prefix] using hr
      have h1 : removeAllT ((q, n) :: t) r = removeAllT t r := by
        simp [removeAllT, List.filter_cons, hb]
      rw [h1, ih]
      by_cases hp : r <+: p
      · simp [hp]
      · have hne : q ≠ p := fun h => hp (h ▸ hr)
        simp [hp, getNode, hne]
    · have hb : r.isPrefixOf q = false :=
        Bool.eq_false_iff.mpr (fun hb => hr (List.isPrefixOf_iff_prefix.mp hb))
      have h1 : removeAllT ((q, n) :: t) r = (q, n) :: removeAllT t r := by
        simp [removeAllT, List.filter_cons, hb]
      rw [h1]
      by_cases he : q = p
      · subst he
        simp [getNode, hr]
      · simp [getNode, he, ih]

theorem getNode_mkdirChain (qs : List Path) (t : Tree) (p : Path) :
    getNode (mkdirChain t qs) p =
      if p ∈ qs ∧ getNode t p = none then some Node.dir else getNode t p := by
  induction qs generalizing t with
  | nil => simp [mkdirChain]
  | cons q qs ih =>
    simp only [mkdirChain]
    rw [ih]
    by_cases hq : p = q
    · subst hq
      by_cases hn : getNode t p = none
      · simp [hn, getNode_setNode]
      · simp [hn]
    · have hq' : q ≠ p := fun h => hq h.symm
      have hset : getNode (if getNode t q = none then setNode t q Node.dir else t) p
          = getNode t p := by
        by_cases hn : getNode t q = none <;> simp [hn, getNode_setNode, hq']
      rw [hset]
      by_cases hmem : p ∈ qs <;> simp [hmem, hq]

theorem mem_ppfx {q p : Path} : q ∈ ppfx p ↔ q ≠ [] ∧ q <+: p := by
  constructor
  · intro h
    rcases List.mem_map.1 h with ⟨i, hi, rfl⟩
    have hi' := List.mem_range.1 hi
    refine ⟨?_, List.take_prefix _ _⟩
    intro hnil
    have hlen : (p.take (i + 1)).length = min (i + 1) p.length := by simp
    rw [hnil] at hlen
    simp only [List.length_nil] at hlen
    have hmin : min (i + 1) p.length = i + 1 := Nat.min_eq_left (by omega)
    omega
  · rintro ⟨hne, hpre⟩
    have hq : q = p.take q.length := List.prefix_iff_eq_take.1 hpre
    have hlen : q.length ≤ p.length := hpre.length_le
    have hpos : 0 < q.length := List.length_pos.2 hne
    refine List.mem_map.2 ⟨q.length - 1, List.mem_range.2 (by omega), ?_⟩
    rw [show q.length - 1 + 1 = q.length from by omega]
    exact hq.symm

theorem length_le_of_mem_ppfx {q p : Path} (h : q ∈ ppfx p) : q.length ≤ p.length :=
  (mem_ppfx.1 h).2.length_le

theorem self_mem_ppfx {p : Path} (h : p ≠ []) : p ∈ ppfx p :=
  mem_ppfx.2 ⟨h, List.prefix_rfl⟩

theorem mkdirAll_ok_of_any_false {t : Tree} {p : Path}
    (h : (ppfx p).any (isFileAt t) = false) :
    mkdirAll t p = .ok (mkdirChain t (ppfx p)) := by
  simp [mkdirAll, h]

theorem mkdirAll_error_of_any_true {t : Tree} {p : Path}
    (h : (ppfx p).any (isFileAt t) = true) : mkdirAll t p = .error () := by
  simp [mkdirAll, h]

theorem mkdirAll_any_false_of_ok {t t' : Tree} {p : Path}
    (h : mkdirAll t p = .ok t') :
    (ppfx p).any (isFileAt t) = false ∧ t' = mkdirChain t (ppfx p) := by
  by_cases hc : (ppfx p).any (isFileAt t) = true
  · simp [mkdirAll, hc] at h
  · have hc' : (ppfx p).any (isFileAt t) = false := by
      simpa using hc
    refine ⟨hc', ?_⟩
    simp only [mkdirAll, hc'] at h
    simpa using h.symm

theorem mkdirAll_ok_dir {t t' : Tree} {p : Path} (h : mkdirAll t p = .ok t')
    {q : Path} (hq : q ∈ ppfx p) : getNode t' q = some Node.dir := by
  obtain ⟨hany, rfl⟩ := mkdirAll_any_false_of_ok h
  rw [getNode_mkdirChain]
  have hnofile : isFileAt t q = false := by
    have h := List.any_eq_false.1 hany q hq
    simpa using h
  by_cases hn : getNode t q = none
  · simp [hq, hn]
  · match hv : getNode t q with
    | none => exact absurd hv hn
    | some Node.dir => simp [hv]
    | some (Node.file c m) => simp [isFileAt, hv] at hnofile

theorem getNode_mkdirAll_ok {t t' : Tree} {d : Path} (h : mkdirAll t d = .ok t')
    {p : Path} (hp : p ∉ ppfx d) : getNode t' p = getNode t p := by
  obtain ⟨hany, rfl⟩ := mkdirAll_any_false_of_ok h
  rw [getNode_mkdirChain]
  simp [hp]

/-- After `MkdirAll` of the parent of `p` succeeds, the node at `p` itself is
untouched (the chain stops strictly above `p`). -/
theorem getNode_self_of_mkdirAll_parent {t t' : Tree} {p : Path}
    (h : mkdirAll t p.dropLast = .ok t') : getNode t' p = getNode t p := by
  refine getNode_mkdirAll_ok h ?_
  intro hmem
  have hle := length_le_of_mem_ppfx hmem
  have hne : p ≠ [] := by
    rintro rfl
    simp [ppfx] at hmem
  have hdl : p.dropLast.length = p.length - 1 := by simp
  have hpos : 0 < p.length := List.length_pos.2 hne
  omega

theorem mkdirAll_parent_ready {t t' : Tree} {d : Path} (h : mkdirAll t d = .ok t')
    (hd : d ≠ []) : getNode t' d = some Node.dir :=
  mkdirAll_ok_dir h (self_mem_ppfx hd)

/-! ### Facts about paths and prefixes -/

theorem prefix_total {a b c : Path} (h1 : a <+: c) (h2 : b <+: c) :
    a <+: b ∨ b <+: a := by
  rcases Nat.le_total a.length b.length with hle | hle
  · left
    have ha : a = c.take a.length := List.prefix_iff_eq_take.1 h1
    have hb : b = c.take b.length := List.prefix_iff_eq_take.1 h2
    rw [ha, hb, List.prefix_iff_eq_take]
    simp [List.take_take, Nat.min_eq_left hle, ← ha]
  · right
    have ha : a = c.take a.length := List.prefix_iff_eq_take.1 h1
    have hb : b = c.take b.length := List.prefix_iff_eq_take.1 h2
    rw [ha, hb, List.prefix_iff_eq_take]
    simp [List.take_take, Nat.min_eq_left hle, ← hb]

theorem prefix_dropLast {root p : Path} (h : root <+: p) (hne : p ≠ root) :
    root <+: p.dropLast := by
  rcases h with ⟨s, rfl⟩
  have hs : s ≠ [] := by
    intro h0
    rw [h0] at hne
    simp at hne
  rw [List.dropLast_append_of_ne_nil _ hs]
  exact ⟨s.dropLast, rfl⟩

theorem ne_nil_of_strict {root p : Path} (h : root <+: p) (hne : p ≠ root) :
    p ≠ [] := by
  intro h0
  rw [h0] at h hne
  exact hne (List.prefix_nil.1 h).symm

theorem dropLast_ne_nil_of_strict {root p : Path} (h : root <+: p) (hne : p ≠ root)
    (hr : root ≠ []) : p.dropLast ≠ [] := by
  have h' := prefix_dropLast h hne
  intro h0
  rw [h0] at h'
  exact hr (List.prefix_nil.1 h')

theorem not_prefix_of_length_lt {a b : Path} (h : b.length < a.length) :
    ¬ a <+: b := fun hp => absurd hp.length_le (by omega)

theorem any_const_false (l : List Path) : (l.any fun _ => false) = false := by
  induction l <;> simp_all

theorem inWhiteoutDir_nil (p : Path) : inWhiteoutDir [] p = false := by
  simp [inWhiteoutDir]

/-! ### Step equations for `openFileCT` -/

theorem openFileCT_trunc {t : Tree} {p : Path} {c0 : String}
    {m0 : Nat} {content : String} {perm : Nat}
    (h : getNode t p = some (.file c0 m0)) :
    openFileCT t p content perm = .ok (setNode t p (.file content m0)) := by
  simp [openFileCT, h]

theorem openFileCT_create {t : Tree} {p : Path} {content : String} {perm : Nat}
    (h : getNode t p = none) (hne : p ≠ [])
    (hpar : p.dropLast = [] ∨ getNode t p.dropLast = some .dir) :
    openFileCT t p content perm = .ok (setNode t p (.file content perm)) := by
  simp [openFileCT, h, hne, hpar]

theorem openFileCT_isdir {t : Tree} {p : Path} {content : String} {perm : Nat}
    (h : getNode t p = some .dir) : openFileCT t p content perm = .error () := by
  simp [openFileCT, h]

theorem openFileCT_orphan {t : Tree} {p : Path} {content : String} {perm : Nat}
    (h : getNode t p = none) (hne : p ≠ [])
    (hpar : ¬ (p.dropLast = [] ∨ getNode t p.dropLast = some .dir)) :
    openFileCT t p content perm = .error () := by
  simp only [openFileCT, h, if_neg hne]
  rw [if_neg hpar]

/-! ### Step equations for `extractTarEntry` -/

theorem extract_mkdir_fail {root : Path} {hdr : Header} {t : Tree}
    (hm : mkdirAll t (hydrateFilepath root hdr.name).dropLast = .error ()) :
    extractTarEntry root hdr t = (t, some "creating parent directories") := by
  simp [extractTarEntry, hm]

theorem extract_dir {root : Path} {hdr : Header} {t t1 : Tree}
    (ht : hdr.typeflag = typeDir)
    (hm : mkdirAll t (hydrateFilepath root hdr.name).dropLast = .ok t1) :
    extractTarEntry root hdr t = (t1, none) := by
  simp [extractTarEntry, hm, ht]

theorem extract_reg {root : Path} {hdr : Header} {t t1 t2 : Tree}
    (ht : hdr.typeflag = typeReg ∨ hdr.typeflag = typeRegA)
    (hm : mkdirAll t (hydrateFilepath root hdr.name).dropLast = .ok t1)
    (ho : openFileCT t1 (hydrateFilepath root hdr.name) hdr.content
        (permModeOf hdr.mode) = .ok t2) :
    extractTarEntry root hdr t = (t2, none) := by
  have hd : hdr.typeflag ≠ typeDir := by
    rcases ht with h | h <;> rw [h] <;> decide
  simp [extractTarEntry, hm, ht, hd, ho]

theorem extract_reg_fail {root : Path} {hdr : Header} {t t1 : Tree}
    (ht : hdr.typeflag = typeReg ∨ hdr.typeflag = typeRegA)
    (hm : mkdirAll t (hydrateFilepath root hdr.name).dropLast = .ok t1)
    (ho : openFileCT t1 (hydrateFilepath root hdr.name) hdr.content
        (permModeOf hdr.mode) = .error ()) :
    extractTarEntry root hdr t = (t1, some "opening file") := by
  have hd : hdr.typeflag ≠ typeDir := by
    rcases ht with h | h <;> rw [h] <;> decide
  simp [extractTarEntry, hm, ht, hd, ho]

theorem extract_skip {root : Path} {hdr : Header} {t t1 : Tree}
    (ht : hdr.typeflag = typeLink ∨ hdr.typeflag = typeSymlink ∨
      hdr.typeflag = typeChar ∨ hdr.typeflag = typeBlock ∨ hdr.typeflag = typeFifo)
    (hm : mkdirAll t (hydrateFilepath root hdr.name).dropLast = .ok t1) :
    extractTarEntry root hdr t = (t1, none) := by
  rcases ht with h | h | h | h | h <;>
    simp [extractTarEntry, hm, h, typeReg, typeRegA, typeLink, typeSymlink,
      typeChar, typeBlock, typeDir, typeFifo]

theorem extract_unsupported {root : Path} {hdr : Header} {t t1 : Tree}
    (h1 : hdr.typeflag ≠ typeDir) (h2 : hdr.typeflag ≠ typeReg)
    (h3 : hdr.typeflag ≠ typeRegA) (h4 : hdr.typeflag ≠ typeLink)
    (h5 : hdr.typeflag ≠ typeSymlink) (h6 : hdr.typeflag ≠ typeChar)
    (h7 : hdr.typeflag ≠ typeBlock) (h8 : hdr.typeflag ≠ typeFifo)
    (hm : mkdirAll t (hydrateFilepath root hdr.name).dropLast = .ok t1) :
    extractTarEntry root hdr t =
      (t1, some ("Unsupported tar entry type '" ++ String.mk [hdr.typeflag] ++
        "' for file '" ++ hdr.name ++ "'")) := by
  simp [extractTarEntry, hm, h1, h2, h3, h4, h5, h6, h7, h8]

/-! ### Step equations for `writeEntries` -/

theorem writeEntries_wh_fail {fail : Path → Bool} {root : Path} {hdr : Header}
    {rest : List Header} {fm : List String} {t : Tree}
    (hw : hasWhMarker (baseOf (hydrateFilepath root hdr.name)) = true)
    (hf : fail (whTargetOf root hdr) = true) :
    writeEntries fail root (hdr :: rest) fm t = ⟨fm, t, none⟩ := by
  simp [writeEntries, hw, removeAllR, hf]

theorem writeEntries_wh_ok {fail : Path → Bool} {root : Path} {hdr : Header}
    {rest : List Header} {fm : List String} {t : Tree}
    (hw : hasWhMarker (baseOf (hydrateFilepath root hdr.name)) = true)
    (hf : fail (whTargetOf root hdr) = false) :
    writeEntries fail root (hdr :: rest) fm t =
      writeEntries fail root rest
        (baseOf (hydrateFilepath root hdr.name) :: fm)
        (removeAllT t (whTargetOf root hdr)) := by
  simp [writeEntries, hw, removeAllR, hf]

theorem writeEntries_in_wh {fail : Path → Bool} {root : Path} {hdr : Header}
    {rest : List Header} {fm : List String} {t : Tree}
    (hw : hasWhMarker (baseOf (hydrateFilepath root hdr.name)) = false)
    (hs : inWhiteoutDir fm (hydrateFilepath root hdr.name) = true) :
    writeEntries fail root (hdr :: rest) fm t =
      writeEntries fail root rest fm t := by
  simp [writeEntries, hw, hs]

theorem writeEntries_root_skip {fail : Path → Bool} {root : Path} {hdr : Header}
    {rest : List Header} {fm : List String} {t : Tree}
    (hw : hasWhMarker (baseOf (hydrateFilepath root hdr.name)) = false)
    (hs : inWhiteoutDir fm (hydrateFilepath root hdr.name) = false)
    (hn : getNode t (hydrateFilepath root hdr.name) = some Node.dir)
    (hdot : hdr.name = ".") :
    writeEntries fail root (hdr :: rest) fm t =
      writeEntries fail root rest fm t := by
  have hw' := hw
  have hs' := hs
  have hn' := hn
  rw [hdot] at hw' hs' hn'
  simp [writeEntries, hdot, hw', hs', hn']

theorem writeEntries_fresh_ok {fail : Path → Bool} {root : Path} {hdr : Header}
    {rest : List Header} {fm : List String} {t t' : Tree}
    (hw : hasWhMarker (baseOf (hydrateFilepath root hdr.name)) = false)
    (hs : inWhiteoutDir fm (hydrateFilepath root hdr.name) = false)
    (hn : getNode t (hydrateFilepath root hdr.name) = none)
    (he : extractTarEntry root hdr t = (t', none)) :
    writeEntries fail root (hdr :: rest) fm t =
      writeEntries fail root rest (hdr.name :: fm) t' := by
  simp [writeEntries, hw, hs, hn, he]

theorem writeEntries_fresh_err {fail : Path → Bool} {root : Path} {hdr : Header}
    {rest : List Header} {fm : List String} {t t' : Tree} {e : String}
    (hw : hasWhMarker (baseOf (hydrateFilepath root hdr.name)) = false)
    (hs : inWhiteoutDir fm (hydrateFilepath root hdr.name) = false)
    (hn : getNode t (hydrateFilepath root hdr.name) = none)
    (he : extractTarEntry root hdr t = (t', some e)) :
    writeEntries fail root (hdr :: rest) fm t = ⟨hdr.name :: fm, t', some e⟩ := by
  simp [writeEntries, hw, hs, hn, he]

theorem writeEntries_replace_fail {fail : Path → Bool} {root : Path}
    {hdr : Header} {rest : List Header} {fm : List String} {t : Tree} {n : Node}
    (hw : hasWhMarker (baseOf (hydrateFilepath root hdr.name)) = false)
    (hs : inWhiteoutDir fm (hydrateFilepath root hdr.name) = false)
    (hn : getNode t (hydrateFilepath root hdr.name) = some n)
    (hdot : ¬ (n = Node.dir ∧ hdr.name = "."))
    (htr : ¬ (n = Node.dir ∧ hdr.typeflag = typeDir))
    (hf : fail (hydrateFilepath root hdr.name) = true) :
    writeEntries fail root (hdr :: rest) fm t =
      ⟨fm, t, some "removing existing path"⟩ := by
  simp [writeEntries, hw, hs, hn, hdot, htr, removeAllR, hf]

theorem writeEntries_replace_ok {fail : Path → Bool} {root : Path}
    {hdr : Header} {rest : List Header} {fm : List String} {t t' : Tree} {n : Node}
    (hw : hasWhMarker (baseOf (hydrateFilepath root hdr.name)) = false)
    (hs : inWhiteoutDir fm (hydrateFilepath root hdr.name) = false)
    (hn : getNode t (hydrateFilepath root hdr.name) = some n)
    (hdot : ¬ (n = Node.dir ∧ hdr.name = "."))
    (htr : ¬ (n = Node.dir ∧ hdr.typeflag = typeDir))
    (hf : fail (hydrateFilepath root hdr.name) = false)
    (he : extractTarEntry root hdr
      (removeAllT t (hydrateFilepath root hdr.name)) = (t', none)) :
    writeEntries fail root (hdr :: rest) fm t =
      writeEntries fail root rest (hdr.name :: fm) t' := by
  simp [writeEntries, hw, hs, hn, hdot, htr, removeAllR, hf, he]

theorem writeEntries_replace_err {fail : Path → Bool} {root : Path}
    {hdr : Header} {rest : List Header} {fm : List String} {t t' : Tree}
    {n : Node} {e : String}
    (hw : hasWhMarker (baseOf (hydrateFilepath root hdr.name)) = false)
    (hs : inWhiteoutDir fm (hydrateFilepath root hdr.name) = false)
    (hn : getNode t (hydrateFilepath root hdr.name) = some n)
    (hdot : ¬ (n = Node.dir ∧ hdr.name = "."))
    (htr : ¬ (n = Node.dir ∧ hdr.typeflag = typeDir))
    (hf : fail (hydrateFilepath root hdr.name) = false)
    (he : extractTarEntry root hdr
      (removeAllT t (hydrateFilepath root hdr.name)) = (t', some e)) :
    writeEntries fail root (hdr :: rest) fm t = ⟨hdr.name :: fm, t', some e⟩ := by
  simp [writeEntries, hw, hs, hn, hdot, htr, removeAllR, hf, he]

theorem writeEntries_merge_ok {fail : Path → Bool} {root : Path}
    {hdr : Header} {rest : List Header} {fm : List String} {t t' : Tree}
    (hw : hasWhMarker (baseOf (hydrateFilepath root hdr.name)) = false)
    (hs : inWhiteoutDir fm (hydrateFilepath root hdr.name) = false)
    (hn : getNode t (hydrateFilepath root hdr.name) = some Node.dir)
    (hdot : hdr.name ≠ ".") (htr : hdr.typeflag = typeDir)
    (he : extractTarEntry root hdr t = (t', none)) :
    writeEntries fail root (hdr :: rest) fm t =
      writeEntries fail root rest (hdr.name :: fm) t' := by
  simp [writeEntries, hw, hs, hn, hdot, htr, he]

theorem prefix_prefix_eq_root {root q : Path} (h1 : q <+: root)
    (h2 : root <+: q) : q = root :=
  h1.eq_of_length (Nat.le_antisymm h1.length_le h2.length_le)

theorem agree_removeAll {root : Path} {t1 t2 : Tree} {g : Path}
    (hA : Agree root t1 t2) (hg : root <+: g) :
    Agree root (removeAllT t1 g) (removeAllT t2 g) := by
  intro p hp
  rw [getNode_removeAllT, getNode_removeAllT, hA p hp]

theorem ancdirs_removeAll {root : Path} {t : Tree} {g : Path}
    (hD : AncDirs root t) (hg : root <+: g) :
    AncDirs root (removeAllT t g) := by
  intro q hq hqr hqn
  rw [getNode_removeAllT]
  have hng : ¬ g <+: q := by
    intro hgq
    exact hqr (prefix_prefix_eq_root hq (hg.trans hgq))
  simp [hng, hD q hq hqr hqn]

theorem agree_set {root : Path} {t1 t2 : Tree} {p : Path} {n : Node}
    (hA : Agree root t1 t2) :
    Agree root (setNode t1 p n) (setNode t2 p n) := by
  intro q hq
  rw [getNode_setNode, getNode_setNode, hA q hq]

theorem ancdirs_set {root : Path} {t : Tree} {p : Path} {n : Node}
    (hD : AncDirs root t) (hp : root <+: p) :
    AncDirs root (setNode t p n) := by
  intro q hq hqr hqn
  rw [getNode_setNode]
  have hne : p ≠ q := by
    intro h
    exact hqr (prefix_prefix_eq_root hq (h ▸ hp))
  simp [hne, hD q hq hqr hqn]

theorem any_congr_mem {l : List Path} {f g : Path → Bool}
    (h : ∀ a ∈ l, f a = g a) : l.any f = l.any g := by
  induction l with
  | nil => simp
  | cons a l ih =>
    simp only [List.any_cons, h a (by simp), ih (fun b hb => h b (by simp [hb]))]

theorem mkdirAny_eq {root d : Path} {t1 t2 : Tree} (hd : root <+: d)
    (hA : Agree root t1 t2) (h1 : AncDirs root t1) (h2 : AncDirs root t2) :
    (ppfx d).any (isFileAt t1) = (ppfx d).any (isFileAt t2) := by
  apply any_congr_mem
  intro q hq
  rcases mem_ppfx.1 hq with ⟨hqn, hqd⟩
  rcases prefix_total hqd hd with hqr | hrq
  · by_cases hq_eq : q = root
    · subst hq_eq
      simp [isFileAt, hA q List.prefix_rfl]
    · simp [isFileAt, h1 q hqr hq_eq hqn, h2 q hqr hq_eq hqn]
  · simp [isFileAt, hA q hrq]

theorem agree_chain {root : Path} {l : List Path} {t1 t2 : Tree}
    (hA : Agree root t1 t2) :
    Agree root (mkdirChain t1 l) (mkdirChain t2 l) := by
  intro p hp
  rw [getNode_mkdirChain, getNode_mkdirChain, hA p hp]

theorem ancdirs_chain {root : Path} {l : List Path} {t : Tree}
    (hD : AncDirs root t) : AncDirs root (mkdirChain t l) := by
  intro q hq hqr hqn
  rw [getNode_mkdirChain]
  simp [hD q hq hqr hqn]

theorem extract_sim {root : Path} {hdr : Header} (hg : GoodEntry root hdr)
    {t1 t2 : Tree} (hA : Agree root t1 t2) (h1 : AncDirs root t1)
    (h2 : AncDirs root t2) :
    (extractTarEntry root hdr t1).2 = (extractTarEntry root hdr t2).2 ∧
    Agree root (extractTarEntry root hdr t1).1 (extractTarEntry root hdr t2).1 ∧
    AncDirs root (extractTarEntry root hdr t1).1 ∧
    AncDirs root (extractTarEntry root hdr t2).1 := by
  obtain ⟨hp, hpr, _⟩ := hg
  have hdp : root <+: (hydrateFilepath root hdr.name).dropLast :=
    prefix_dropLast hp hpr
  have hanyEq := mkdirAny_eq hdp hA h1 h2
  by_cases hany : (ppfx (hydrateFilepath root hdr.name).dropLast).any
      (isFileAt t1) = true
  · have hm1 := mkdirAll_error_of_any_true (t := t1) hany
    have hm2 := mkdirAll_error_of_any_true (t := t2) (hanyEq ▸ hany)
    rw [extract_mkdir_fail hm1, extract_mkdir_fail hm2]
    exact ⟨rfl, hA, h1, h2⟩
  · have hany1 : (ppfx (hydrateFilepath root hdr.name).dropLast).any
        (isFileAt t1) = false := by simpa using hany
    have hany2 : (ppfx (hydrateFilepath root hdr.name).dropLast).any
        (isFileAt t2) = false := hanyEq ▸ hany1
    have hm1 := mkdirAll_ok_of_any_false hany1
    have hm2 := mkdirAll_ok_of_any_false hany2
    have hA' : Agree root (mkdirChain t1 (ppfx (hydrateFilepath root hdr.name).dropLast))
        (mkdirChain t2 (ppfx (hydrateFilepath root hdr.name).dropLast)) :=
      agree_chain hA
    have h1' := ancdirs_chain (l := ppfx (hydrateFilepath root hdr.name).dropLast) h1
    have h2' := ancdirs_chain (l := ppfx (hydrateFilepath root hdr.name).dropLast) h2
    by_cases hD : hdr.typeflag = typeDir
    · rw [extract_dir hD hm1, extract_dir hD hm2]
      exact ⟨rfl, hA', h1', h2'⟩
    · by_cases hR : hdr.typeflag = typeReg ∨ hdr.typeflag = typeRegA
      · have hnode := hA' (hydrateFilepath root hdr.name) hp
        have hne : hydrateFilepath root hdr.name ≠ [] := ne_nil_of_strict hp hpr
        rcases hv : getNode (mkdirChain t2 (ppfx (hydrateFilepath root hdr.name).dropLast))
            (hydrateFilepath root hdr.name) with _ | n
        · have hv1 := hnode.trans hv
          by_cases hpar : ((hydrateFilepath root hdr.name).dropLast = [] ∨
              getNode (mkdirChain t2 (ppfx (hydrateFilepath root hdr.name).dropLast))
                (hydrateFilepath root hdr.name).dropLast = some Node.dir)
          · have hpar1 : ((hydrateFilepath root hdr.name).dropLast = [] ∨
                getNode (mkdirChain t1 (ppfx (hydrateFilepath root hdr.name).dropLast))
                  (hydrateFilepath root hdr.name).dropLast = some Node.dir) := by
              rcases hpar with h | h
              · exact Or.inl h
              · exact Or.inr ((hA' _ hdp).trans h)
            rw [extract_reg hR hm1 (openFileCT_create hv1 hne hpar1),
              extract_reg hR hm2 (openFileCT_create hv hne hpar)]
            exact ⟨rfl, agree_set hA', ancdirs_set h1' hp, ancdirs_set h2' hp⟩
          · have hpar1 : ¬ ((hydrateFilepath root hdr.name).dropLast = [] ∨
                getNode (mkdirChain t1 (ppfx (hydrateFilepath root hdr.name).dropLast))
                  (hydrateFilepath root hdr.name).dropLast = some Node.dir) := by
              rw [hA' _ hdp]
              exact hpar
            rw [extract_reg_fail hR hm1 (openFileCT_orphan hv1 hne hpar1),
              extract_reg_fail hR hm2 (openFileCT_orphan hv hne hpar)]
            exact ⟨rfl, hA', h1', h2'⟩
        · cases n with
          | dir =>
            rw [extract_reg_fail hR hm1 (openFileCT_isdir (hnode.trans hv)),
              extract_reg_fail hR hm2 (openFileCT_isdir hv)]
            exact ⟨rfl, hA', h1', h2'⟩
          | file c m =>
            rw [extract_reg hR hm1 (openFileCT_trunc (hnode.trans hv)),
              extract_reg hR hm2 (openFileCT_trunc hv)]
            exact ⟨rfl, agree_set hA', ancdirs_set h1' hp, ancdirs_set h2' hp⟩
      · by_cases hS : hdr.typeflag = typeLink ∨ hdr.typeflag = typeSymlink ∨
            hdr.typeflag = typeChar ∨ hdr.typeflag = typeBlock ∨
            hdr.typeflag = typeFifo
        · rw [extract_skip hS hm1, extract_skip hS hm2]
          exact ⟨rfl, hA', h1', h2'⟩
        · push_neg at hR hS
          rw [extract_unsupported hD hR.1 hR.2 hS.1 hS.2.1 hS.2.2.1 hS.2.2.2.1
              hS.2.2.2.2 hm1,
            extract_unsupported hD hR.1 hR.2 hS.1 hS.2.1 hS.2.2.1 hS.2.2.2.1
              hS.2.2.2.2 hm2]
          exact ⟨rfl, hA', h1', h2'⟩

theorem writeEntries_merge_err {fail : Path → Bool} {root : Path}
    {hdr : Header} {rest : List Header} {fm : List String} {t t' : Tree}
    {e : String}
    (hw : hasWhMarker (baseOf (hydrateFilepath root hdr.name)) = false)
    (hs : inWhiteoutDir fm (hydrateFilepath root hdr.name) = false)
    (hn : getNode t (hydrateFilepath root hdr.name) = some Node.dir)
    (hdot : hdr.name ≠ ".") (htr : hdr.typeflag = typeDir)
    (he : extractTarEntry root hdr t = (t', some e)) :
    writeEntries fail root (hdr :: rest) fm t = ⟨hdr.name :: fm, t', some e⟩ := by
  simp [writeEntries, hw, hs, hn, hdot, htr, he]

theorem writeEntries_sim {root : Path} (es : List Header) :
    ∀ (fm : List String) (t1 t2 : Tree),
      (∀ h ∈ es, GoodEntry root h) → Agree root t1 t2 →
      AncDirs root t1 → AncDirs root t2 →
      (writeEntries noFail root es fm t1).fm = (writeEntries noFail root es fm t2).fm ∧
      (writeEntries noFail root es fm t1).err = (writeEntries noFail root es fm t2).err ∧
      Agree root (writeEntries noFail root es fm t1).tree
        (writeEntries noFail root es fm t2).tree ∧
      AncDirs root (writeEntries noFail root es fm t1).tree ∧
      AncDirs root (writeEntries noFail root es fm t2).tree := by
  induction es with
  | nil =>
    intro fm t1 t2 _ hA h1 h2
    simpa [writeEntries] using ⟨hA, h1, h2⟩
  | cons hdr rest ih =>
    intro fm t1 t2 hges hA h1 h2
    have hghdr : GoodEntry root hdr := hges hdr (by simp)
    have hgrest : ∀ h ∈ rest, GoodEntry root h := fun h hh => hges h (by simp [hh])
    obtain ⟨hp, hpr, hwh⟩ := hghdr
    by_cases hw : hasWhMarker (baseOf (hydrateFilepath root hdr.name)) = true
    · have hf : noFail (whTargetOf root hdr) = false := rfl
      rw [writeEntries_wh_ok hw hf, writeEntries_wh_ok hw hf]
      exact ih _ _ _ hgrest (agree_removeAll hA (hwh hw))
        (ancdirs_removeAll h1 (hwh hw)) (ancdirs_removeAll h2 (hwh hw))
    · have hw' : hasWhMarker (baseOf (hydrateFilepath root hdr.name)) = false := by
        simpa using hw
      by_cases hs : inWhiteoutDir fm (hydrateFilepath root hdr.name) = true
      · rw [writeEntries_in_wh hw' hs, writeEntries_in_wh hw' hs]
        exact ih _ _ _ hgrest hA h1 h2
      · have hs' : inWhiteoutDir fm (hydrateFilepath root hdr.name) = false := by
          simpa using hs
        have hnode := hA (hydrateFilepath root hdr.name) hp
        rcases hv : getNode t2 (hydrateFilepath root hdr.name) with _ | n
        · have hv1 := hnode.trans hv
          obtain ⟨heq, hAe, h1e, h2e⟩ := extract_sim ⟨hp, hpr, hwh⟩ hA h1 h2
          rcases he2 : (extractTarEntry root hdr t2).2 with _ | e
          · have he1 : (extractTarEntry root hdr t1).2 = none := heq.trans he2
            rw [writeEntries_fresh_ok hw' hs' hv1 (Prod.ext rfl he1),
              writeEntries_fresh_ok hw' hs' hv (Prod.ext rfl he2)]
            exact ih _ _ _ hgrest hAe h1e h2e
          · have he1 : (extractTarEntry root hdr t1).2 = some e := heq.trans he2
            rw [writeEntries_fresh_err hw' hs' hv1 (Prod.ext rfl he1),
              writeEntries_fresh_err hw' hs' hv (Prod.ext rfl he2)]
            exact ⟨rfl, rfl, hAe, h1e, h2e⟩
        · have hv1 : getNode t1 (hydrateFilepath root hdr.name) = some n :=
            hnode.trans hv
          by_cases hdot : n = Node.dir ∧ hdr.name = "."
          · rw [writeEntries_root_skip hw' hs' (hdot.1 ▸ hv1) hdot.2,
              writeEntries_root_skip hw' hs' (hdot.1 ▸ hv) hdot.2]
            exact ih _ _ _ hgrest hA h1 h2
          · by_cases htr : n = Node.dir ∧ hdr.typeflag = typeDir
            · have hdne : hdr.name ≠ "." := fun h => hdot ⟨htr.1, h⟩
              obtain ⟨heq, hAe, h1e, h2e⟩ := extract_sim ⟨hp, hpr, hwh⟩ hA h1 h2
              rcases he2 : (extractTarEntry root hdr t2).2 with _ | e
              · have he1 : (extractTarEntry root hdr t1).2 = none := heq.trans he2
                rw [writeEntries_merge_ok hw' hs' (htr.1 ▸ hv1) hdne htr.2
                    (Prod.ext rfl he1),
                  writeEntries_merge_ok hw' hs' (htr.1 ▸ hv) hdne htr.2
                    (Prod.ext rfl he2)]
                exact ih _ _ _ hgrest hAe h1e h2e
              · have he1 : (extractTarEntry root hdr t1).2 = some e := heq.trans he2
                rw [writeEntries_merge_err hw' hs' (htr.1 ▸ hv1) hdne htr.2
                    (Prod.ext rfl he1),
                  writeEntries_merge_err hw' hs' (htr.1 ▸ hv) hdne htr.2
                    (Prod.ext rfl he2)]
                exact ⟨rfl, rfl, hAe, h1e, h2e⟩
            · have hf : noFail (hydrateFilepath root hdr.name) = false := rfl
              have hAr := agree_removeAll hA hp
              have h1r := ancdirs_removeAll h1 hp
              have h2r := ancdirs_removeAll h2 hp
              obtain ⟨heq, hAe, h1e, h2e⟩ := extract_sim ⟨hp, hpr, hwh⟩ hAr h1r h2r
              rcases he2 : (extractTarEntry root hdr
                  (removeAllT t2 (hydrateFilepath root hdr.name))).2 with _ | e
              · have he1 : (extractTarEntry root hdr
                    (removeAllT t1 (hydrateFilepath root hdr.name))).2 = none :=
                  heq.trans he2
                rw [writeEntries_replace_ok hw' hs' hv1 hdot htr hf
                    (Prod.ext rfl he1),
                  writeEntries_replace_ok hw' hs' hv hdot htr hf
                    (Prod.ext rfl he2)]
                exact ih _ _ _ hgrest hAe h1e h2e
              · have he1 : (extractTarEntry root hdr
                    (removeAllT t1 (hydrateFilepath root hdr.name))).2 = some e :=
                  heq.trans he2
                rw [writeEntries_replace_err hw' hs' hv1 hdot htr hf
                    (Prod.ext rfl he1),
                  writeEntries_replace_err hw' hs' hv hdot htr hf
                    (Prod.ext rfl he2)]
                exact ⟨rfl, rfl, hAe, h1e, h2e⟩

theorem runLayers_sim {root : Path} (ls : List (List Header)) :
    ∀ (fm : List String) (t1 t2 : Tree),
      (∀ l ∈ ls, ∀ h ∈ l, GoodEntry root h) → Agree root t1 t2 →
      AncDirs root t1 → AncDirs root t2 →
      (runLayers noFail root ls fm t1).2 = (runLayers noFail root ls fm t2).2 ∧
      Agree root (runLayers noFail root ls fm t1).1
        (runLayers noFail root ls fm t2).1 ∧
      AncDirs root (runLayers noFail root ls fm t1).1 ∧
      AncDirs root (runLayers noFail root ls fm t2).1 := by
  induction ls with
  | nil =>
    intro fm t1 t2 _ hA h1 h2
    simpa [runLayers] using ⟨hA, h1, h2⟩
  | cons l ls ih =>
    intro fm t1 t2 hg hA h1 h2
    have hgl : ∀ h ∈ l, GoodEntry root h := hg l (by simp)
    have hgls : ∀ l' ∈ ls, ∀ h ∈ l', GoodEntry root h :=
      fun l' hl' => hg l' (by simp [hl'])
    obtain ⟨hfm, herr, hAw, h1w, h2w⟩ := writeEntries_sim l fm t1 t2 hgl hA h1 h2
    simp only [runLayers, herr]
    rcases he2 : (writeEntries noFail root l fm t2).err with _ | e
    · rw [hfm]
      exact ih _ _ _ hgls hAw h1w h2w
    · exact ⟨rfl, hAw, h1w, h2w⟩

/-! ### Facts about run setup (wipe and recreate of the destination root) -/

theorem length_lt_of_strict {root p : Path} (h : root <+: p) (hne : p ≠ root) :
    root.length < p.length := by
  rcases Nat.lt_or_ge root.length p.length with h1 | h1
  · exact h1
  · exact absurd (h.eq_of_length (Nat.le_antisymm h.length_le h1)).symm hne

theorem not_mem_ppfx_of_strict {root p : Path} (h : root <+: p) (hne : p ≠ root) :
    p ∉ ppfx root := by
  intro hm
  have := length_le_of_mem_ppfx hm
  have := length_lt_of_strict h hne
  omega

theorem getNode_wipe_under {t : Tree} {root p : Path} (hp : root <+: p) :
    getNode (removeAllT t root) p = none := by
  rw [getNode_removeAllT]
  simp [hp]

theorem setup_under {t : Tree} {root : Path} (hr : root ≠ []) {p : Path}
    (hp : root <+: p) :
    getNode (mkdirChain (removeAllT t root) (ppfx root)) p
      = if p = root then some Node.dir else none := by
  rw [getNode_mkdirChain]
  by_cases he : p = root
  · subst he
    simp [self_mem_ppfx hr, getNode_wipe_under List.prefix_rfl]
  · have hnm : p ∉ ppfx root := not_mem_ppfx_of_strict hp he
    simp [hnm, getNode_wipe_under hp, he]

theorem setup_anc {t : Tree} {root : Path}
    (hok : (ppfx root).any (isFileAt (removeAllT t root)) = false) :
    AncDirs root (mkdirChain (removeAllT t root) (ppfx root)) := by
  intro q hq hqr hqn
  rw [getNode_mkdirChain]
  have hmem : q ∈ ppfx root := mem_ppfx.2 ⟨hqn, hq⟩
  have hnofile : isFileAt (removeAllT t root) q = false := by
    simpa using List.any_eq_false.1 hok q hmem
  rcases hv : getNode (removeAllT t root) q with _ | n
  · simp [hmem, hv]
  · cases n with
    | dir => simp [hv]
    | file c m => simp [isFileAt, hv] at hnofile

theorem removeAllT_idem (t : Tree) (r : Path) :
    removeAllT (removeAllT t r) r = removeAllT t r := by
  simp [removeAllT, List.filter_filter]

/-! ### Symbolic execution of a one-regular-file layer -/

theorem isFileAt_none {t : Tree} {q : Path} (h : getNode t q = none) :
    isFileAt t q = false := by
  simp [isFileAt, h]

theorem isFileAt_dir {t : Tree} {q : Path} (h : getNode t q = some Node.dir) :
    isFileAt t q = false := by
  simp [isFileAt, h]

/-- Running one surviving regular-file entry against a tree with no file at
its path and no files along its parent chain: the parents get created, the
file lands with the normalized permission, and the layer ends cleanly. -/
theorem writeEntries_single_reg_fresh {root : Path} {hdr : Header}
    {fm : List String} {t : Tree}
    (ht : hdr.typeflag = typeReg)
    (hp : root <+: hydrateFilepath root hdr.name)
    (hpr : hydrateFilepath root hdr.name ≠ root)
    (hw : hasWhMarker (baseOf (hydrateFilepath root hdr.name)) = false)
    (hs : inWhiteoutDir fm (hydrateFilepath root hdr.name) = false)
    (hany : (ppfx (hydrateFilepath root hdr.name).dropLast).any (isFileAt t)
      = false)
    (hn : getNode t (hydrateFilepath root hdr.name) = none) :
    writeEntries noFail root [hdr] fm t =
      ⟨[hdr.name] ++ fm,
        setNode (mkdirChain t (ppfx (hydrateFilepath root hdr.name).dropLast))
          (hydrateFilepath root hdr.name)
          (.file hdr.content (permModeOf hdr.mode)), none⟩ := by
  have hm := mkdirAll_ok_of_any_false hany
  have hnchain : getNode
      (mkdirChain t (ppfx (hydrateFilepath root hdr.name).dropLast))
      (hydrateFilepath root hdr.name) = none := by
    rw [getNode_self_of_mkdirAll_parent hm]
    exact hn
  have hne : hydrateFilepath root hdr.name ≠ [] := ne_nil_of_strict hp hpr
  have hpar : (hydrateFilepath root hdr.name).dropLast = [] ∨
      getNode (mkdirChain t (ppfx (hydrateFilepath root hdr.name).dropLast))
        (hydrateFilepath root hdr.name).dropLast = some Node.dir := by
    by_cases hd : (hydrateFilepath root hdr.name).dropLast = []
    · exact Or.inl hd
    · exact Or.inr (mkdirAll_parent_ready hm hd)
  have he := extract_reg (Or.inl ht) hm (openFileCT_create hnchain hne hpar)
  rw [writeEntries_fresh_ok hw hs hn he]
  simp [writeEntries]

/-- Running one surviving regular-file entry whose path holds a regular file:
the existing object is removed first, then the entry is written as a fresh
file with the normalized permission. -/
theorem writeEntries_single_reg_replace {root : Path} {hdr : Header}
    {fm : List String} {t : Tree} {c0 : String} {m0 : Nat}
    (ht : hdr.typeflag = typeReg)
    (hp : root <+: hydrateFilepath root hdr.name)
    (hpr : hydrateFilepath root hdr.name ≠ root)
    (hw : hasWhMarker (baseOf (hydrateFilepath root hdr.name)) = false)
    (hs : inWhiteoutDir fm (hydrateFilepath root hdr.name) = false)
    (hany : (ppfx (hydrateFilepath root hdr.name).dropLast).any (isFileAt t)
      = false)
    (hn : getNode t (hydrateFilepath root hdr.name) = some (.file c0 m0)) :
    writeEntries noFail root [hdr] fm t =
      ⟨[hdr.name] ++ fm,
        setNode (mkdirChain (removeAllT t (hydrateFilepath root hdr.name))
            (ppfx (hydrateFilepath root hdr.name).dropLast))
          (hydrateFilepath root hdr.name)
          (.file hdr.content (permModeOf hdr.mode)), none⟩ := by
  have hanyr : (ppfx (hydrateFilepath root hdr.name).dropLast).any
      (isFileAt (removeAllT t (hydrateFilepath root hdr.name))) = false := by
    rw [List.any_eq_false]
    intro q hq
    have hle := length_le_of_mem_ppfx hq
    have hdl : (hydrateFilepath root hdr.name).dropLast.length
        = (hydrateFilepath root hdr.name).length - 1 := by simp
    have hqlt : q.length < (hydrateFilepath root hdr.name).length := by
      have hne : hydrateFilepath root hdr.name ≠ [] := ne_nil_of_strict hp hpr
      have hpos : 0 < (hydrateFilepath root hdr.name).length :=
        List.length_pos.2 hne
      omega
    have hnp : ¬ hydrateFilepath root hdr.name <+: q :=
      not_prefix_of_length_lt hqlt
    have hgq : getNode (removeAllT t (hydrateFilepath root hdr.name)) q
        = getNode t q := by
      rw [getNode_removeAllT]
      simp [hnp]
    have := List.any_eq_false.1 hany q hq
    simp only [isFileAt, hgq]
    simpa [isFileAt] using this
  have hm := mkdirAll_ok_of_any_false hanyr
  have hnchain : getNode
      (mkdirChain (removeAllT t (hydrateFilepath root hdr.name))
        (ppfx (hydrateFilepath root hdr.name).dropLast))
      (hydrateFilepath root hdr.name) = none := by
    rw [getNode_self_of_mkdirAll_parent hm]
    exact getNode_wipe_under List.prefix_rfl
  have hne : hydrateFilepath root hdr.name ≠ [] := ne_nil_of_strict hp hpr
  have hpar : (hydrateFilepath root hdr.name).dropLast = [] ∨
      getNode (mkdirChain (removeAllT t (hydrateFilepath root hdr.name))
          (ppfx (hydrateFilepath root hdr.name).dropLast))
        (hydrateFilepath root hdr.name).dropLast = some Node.dir := by
    by_cases hd : (hydrateFilepath root hdr.name).dropLast = []
    · exact Or.inl hd
    · exact Or.inr (mkdirAll_parent_ready hm hd)
  have he := extract_reg (Or.inl ht) hm (openFileCT_create hnchain hne hpar)
  have hdot : ¬ ((Node.file c0 m0 : Node) = Node.dir ∧ hdr.name = ".") := by
    simp
  have htrn : ¬ ((Node.file c0 m0 : Node) = Node.dir ∧ hdr.typeflag = typeDir) := by
    simp
  have hf : noFail (hydrateFilepath root hdr.name) = false := rfl
  rw [writeEntries_replace_ok hw hs hn hdot htrn hf he]
  simp [writeEntries]

/-! ### The claims -/

/-- C1: claimed: every hydrated path is a descendant of the destination root,
and an entry whose relative components resolve outside the root makes the run
fail.  The code instead lets `filepath.Join` resolve `..` lexically: the name
"../escape" hydrates to /tmp/escape, outside the root /tmp/dest, and the run
extracts the file there and reports success. -/
theorem c1_path_escape :
    hydrateFilepath ["tmp", "dest"] "../escape" = ["tmp", "escape"] ∧
    ¬ (["tmp", "dest"] <+: ["tmp", "escape"]) ∧
    (asDirectory noFail ["tmp", "dest"]
      [[⟨"../escape", typeReg, 0o600, "pwned"⟩]] []).2 = none ∧
    getNode (asDirectory noFail ["tmp", "dest"]
      [[⟨"../escape", typeReg, 0o600, "pwned"⟩]] []).1 ["tmp", "escape"]
      = some (Node.file "pwned" 0o666) :=
  ⟨rfl, by decide, rfl, rfl⟩

/-- C2: claimed: a whiteout for P in a newer layer suppresses a regular entry
for P in an older layer, leaving no file at P.  The code records the whiteout
under its `.wh.`-prefixed basename while `inWhiteoutDir` looks up full parent
paths, so the keys never match: the older layer recreates P and the final
tree has the file. -/
theorem c2_whiteout_not_applied :
    (asDirectory noFail ["tmp", "dest"]
      [[⟨"a/b.txt", typeReg, 0o600, "old"⟩], [⟨"a/.wh.b.txt", typeReg, 0, ""⟩]]
      []).2 = none ∧
    getNode (asDirectory noFail ["tmp", "dest"]
      [[⟨"a/b.txt", typeReg, 0o600, "old"⟩], [⟨"a/.wh.b.txt", typeReg, 0, ""⟩]]
      []).1 ["tmp", "dest", "a", "b.txt"] = some (Node.file "old" 0o666) :=
  ⟨rfl, rfl⟩

/-- C3: claimed: a whiteout that deletes directory D suppresses every entry
of an older layer strictly below D.  The deletion map keys (`.wh.a`) never
match the parent-path lookups of `inWhiteoutDir`, so the older layer's
`a/b.txt` is materialized although `.wh.a` was recorded first. -/
theorem c3_cascade_not_applied :
    (asDirectory noFail ["tmp", "dest"]
      [[⟨"a", typeDir, 0o755, ""⟩, ⟨"a/b.txt", typeReg, 0o600, "old"⟩],
       [⟨".wh.a", typeReg, 0, ""⟩]] []).2 = none ∧
    getNode (asDirectory noFail ["tmp", "dest"]
      [[⟨"a", typeDir, 0o755, ""⟩, ⟨"a/b.txt", typeReg, 0o600, "old"⟩],
       [⟨".wh.a", typeReg, 0, ""⟩]] []).1 ["tmp", "dest", "a", "b.txt"]
      = some (Node.file "old" 0o666) :=
  ⟨rfl, rfl⟩

/-- C5: the permission of every freshly created regular file is the stored
mode itself when any group/other bit is set, and otherwise the owner bits
replicated into the group and other positions. -/
theorem c5_permission_normalization {root : Path} {hdr : Header} {t t1 : Tree}
    (ht : hdr.typeflag = typeReg ∨ hdr.typeflag = typeRegA)
    (hm : mkdirAll t (hydrateFilepath root hdr.name).dropLast = .ok t1)
    (hn : getNode t (hydrateFilepath root hdr.name) = none)
    (hne : hydrateFilepath root hdr.name ≠ []) :
    (extractTarEntry root hdr t).2 = none ∧
    getNode (extractTarEntry root hdr t).1 (hydrateFilepath root hdr.name)
      = some (.file hdr.content
        (if hdr.mode &&& 0o077 > 0 then hdr.mode
         else (hdr.mode &&& 0o700) ||| (hdr.mode &&& 0o700) >>> 3 |||
           (hdr.mode &&& 0o700) >>> 6)) := by
  have hn1 : getNode t1 (hydrateFilepath root hdr.name) = none := by
    rw [getNode_self_of_mkdirAll_parent hm]
    exact hn
  have hpar : (hydrateFilepath root hdr.name).dropLast = [] ∨
      getNode t1 (hydrateFilepath root hdr.name).dropLast = some Node.dir := by
    by_cases hd : (hydrateFilepath root hdr.name).dropLast = []
    · exact Or.inl hd
    · exact Or.inr (mkdirAll_parent_ready hm hd)
  have he := extract_reg ht hm (openFileCT_create hn1 hne hpar)
  rw [he]
  refine ⟨rfl, ?_⟩
  rw [show ((setNode t1 (hydrateFilepath root hdr.name)
      (.file hdr.content (permModeOf hdr.mode)), (none : Option String))).1
    = setNode t1 (hydrateFilepath root hdr.name)
      (.file hdr.content (permModeOf hdr.mode)) from rfl]
  rw [getNode_setNode]
  simp [permModeOf]

/-- C5 witness: stored mode 0600 yields 0666, 0700 yields 0777, and 0750
(group bits present) is preserved unmodified. -/
theorem c5_permission_normalization_w :
    getNode (extractTarEntry ["tmp", "dest"] ⟨"f", typeReg, 0o600, "x"⟩
      [(["tmp", "dest"], Node.dir), (["tmp"], Node.dir)]).1
      ["tmp", "dest", "f"] = some (Node.file "x" 0o666) ∧
    getNode (extractTarEntry ["tmp", "dest"] ⟨"f", typeReg, 0o700, "x"⟩
      [(["tmp", "dest"], Node.dir), (["tmp"], Node.dir)]).1
      ["tmp", "dest", "f"] = some (Node.file "x" 0o777) ∧
    getNode (extractTarEntry ["tmp", "dest"] ⟨"f", typeReg, 0o750, "x"⟩
      [(["tmp", "dest"], Node.dir), (["tmp"], Node.dir)]).1
      ["tmp", "dest", "f"] = some (Node.file "x" 0o750) := by
  refine ⟨?_, ?_, ?_⟩
  · have h := (@c5_permission_normalization ["tmp", "dest"]
      ⟨"f", typeReg, 0o600, "x"⟩
      [(["tmp", "dest"], Node.dir), (["tmp"], Node.dir)] _
      (Or.inl rfl) rfl (by decide) (by decide)).2
    exact h.trans (by decide)
  · have h := (@c5_permission_normalization ["tmp", "dest"]
      ⟨"f", typeReg, 0o700, "x"⟩
      [(["tmp", "dest"], Node.dir), (["tmp"], Node.dir)] _
      (Or.inl rfl) rfl (by decide) (by decide)).2
    exact h.trans (by decide)
  · have h := (@c5_permission_normalization ["tmp", "dest"]
      ⟨"f", typeReg, 0o750, "x"⟩
      [(["tmp", "dest"], Node.dir), (["tmp"], Node.dir)] _
      (Or.inl rfl) rfl (by decide) (by decide)).2
    exact h.trans (by decide)

/-- C6 counterexample: a single directory entry `a/b` survives every check
and the run succeeds, yet no directory exists at its normalized path
/tmp/dest/a/b afterwards — only the parent /tmp/dest/a was created (the
claim asserts the directory itself is ensured to exist). -/
theorem c6_counterexample :
    (asDirectory noFail ["tmp", "dest"]
      [[⟨"a/b", typeDir, 0o755, ""⟩]] []).2 = none ∧
    getNode (asDirectory noFail ["tmp", "dest"]
      [[⟨"a/b", typeDir, 0o755, ""⟩]] []).1 ["tmp", "dest", "a"]
      = some Node.dir ∧
    getNode (asDirectory noFail ["tmp", "dest"]
      [[⟨"a/b", typeDir, 0o755, ""⟩]] []).1 ["tmp", "dest", "a", "b"]
      = none :=
  ⟨rfl, rfl, rfl⟩

/-- C6 amended: materializing a surviving directory-type entry ensures the
parent chain of the entry's normalized path exists as directories (created
with 0777 if absent) and succeeds; the directory at the path itself is not
created — the node at the path is left exactly as it was. -/
theorem c6_dir_parent_only {root : Path} {hdr : Header} {t t1 : Tree}
    (ht : hdr.typeflag = typeDir)
    (hm : mkdirAll t (hydrateFilepath root hdr.name).dropLast = .ok t1) :
    extractTarEntry root hdr t = (t1, none) ∧
    (∀ q ∈ ppfx (hydrateFilepath root hdr.name).dropLast,
      getNode t1 q = some Node.dir) ∧
    getNode t1 (hydrateFilepath root hdr.name)
      = getNode t (hydrateFilepath root hdr.name) :=
  ⟨extract_dir ht hm, fun _ hq => mkdirAll_ok_dir hm hq,
    getNode_self_of_mkdirAll_parent hm⟩

/-- C6 amended witness: the directory entry `a/b` on an empty tree creates
/tmp/dest/a but leaves no node at /tmp/dest/a/b. -/
theorem c6_dir_parent_only_w :
    (extractTarEntry ["tmp", "dest"] ⟨"a/b", typeDir, 0o755, ""⟩ []).2 = none ∧
    getNode (extractTarEntry ["tmp", "dest"] ⟨"a/b", typeDir, 0o755, ""⟩ []).1
      ["tmp", "dest", "a", "b"] = none := by
  have h := @c6_dir_parent_only ["tmp", "dest"] ⟨"a/b", typeDir, 0o755, ""⟩
    [] _ rfl rfl
  constructor
  · rw [h.1]
  · rw [h.1]
    exact h.2.2.trans rfl

/-- C8: entries of link, symlink, character-device, block-device or FIFO type
are materialized as silent no-ops (success, and no object appears at the
entry's path), while any type flag outside the supported and skippable set
fails with an unsupported-entry-type error naming the type and the path. -/
theorem c8_skip_and_reject {root : Path} {hdr : Header} {t t1 : Tree}
    (hm : mkdirAll t (hydrateFilepath root hdr.name).dropLast = .ok t1) :
    ((hdr.typeflag = typeLink ∨ hdr.typeflag = typeSymlink ∨
      hdr.typeflag = typeChar ∨ hdr.typeflag = typeBlock ∨
      hdr.typeflag = typeFifo) →
      (extractTarEntry root hdr t).2 = none ∧
      getNode (extractTarEntry root hdr t).1 (hydrateFilepath root hdr.name)
        = getNode t (hydrateFilepath root hdr.name)) ∧
    (hdr.typeflag ≠ typeDir → hdr.typeflag ≠ typeReg →
     hdr.typeflag ≠ typeRegA → hdr.typeflag ≠ typeLink →
     hdr.typeflag ≠ typeSymlink → hdr.typeflag ≠ typeChar →
     hdr.typeflag ≠ typeBlock → hdr.typeflag ≠ typeFifo →
      extractTarEntry root hdr t
        = (t1, some ("Unsupported tar entry type '" ++ String.mk [hdr.typeflag]
            ++ "' for file '" ++ hdr.name ++ "'"))) := by
  constructor
  · intro hS
    have he := extract_skip hS hm
    rw [he]
    exact ⟨rfl, getNode_self_of_mkdirAll_parent hm⟩
  · intro h1 h2 h3 h4 h5 h6 h7 h8
    exact extract_unsupported h1 h2 h3 h4 h5 h6 h7 h8 hm

/-- C8 witness: a symlink entry succeeds and leaves nothing at its path; an
unknown type flag fails with the formatted unsupported-entry message. -/
theorem c8_skip_and_reject_w :
    (extractTarEntry ["tmp", "dest"] ⟨"a/ln", typeSymlink, 0o777, ""⟩ []).2
      = none ∧
    getNode (extractTarEntry ["tmp", "dest"]
      ⟨"a/ln", typeSymlink, 0o777, ""⟩ []).1 ["tmp", "dest", "a", "ln"]
      = none ∧
    (extractTarEntry ["tmp", "dest"] ⟨"zz", 'z', 0, ""⟩ []).2
      = some "Unsupported tar entry type 'z' for file 'zz'" := by
  have h1 := (@c8_skip_and_reject ["tmp", "dest"]
    ⟨"a/ln", typeSymlink, 0o777, ""⟩ [] _ rfl).1
    (by right; left; rfl)
  have h2 := (@c8_skip_and_reject ["tmp", "dest"]
    ⟨"zz", 'z', 0, ""⟩ [] _ rfl).2 (by decide) (by decide)
    (by decide) (by decide) (by decide) (by decide) (by decide) (by decide)
  refine ⟨h1.1, h1.2.trans rfl, ?_⟩
  rw [h2]
  decide

/-- C10: for a surviving entry of a silently-skipped type (link, symlink,
char/block device, FIFO), the parent directories of its normalized path are
created before the type flag is examined, so they exist afterwards. -/
theorem c10_parents_created {root : Path} {hdr : Header} {t t1 : Tree}
    (ht : hdr.typeflag = typeLink ∨ hdr.typeflag = typeSymlink ∨
      hdr.typeflag = typeChar ∨ hdr.typeflag = typeBlock ∨
      hdr.typeflag = typeFifo)
    (hm : mkdirAll t (hydrateFilepath root hdr.name).dropLast = .ok t1) :
    extractTarEntry root hdr t = (t1, none) ∧
    ∀ q ∈ ppfx (hydrateFilepath root hdr.name).dropLast,
      getNode t1 q = some Node.dir :=
  ⟨extract_skip ht hm, fun _ hq => mkdirAll_ok_dir hm hq⟩

/-- C10 witness: a FIFO entry `a/b/p` creates directories /tmp/dest/a and
/tmp/dest/a/b although the entry itself is skipped. -/
theorem c10_parents_created_w :
    (extractTarEntry ["tmp", "dest"] ⟨"a/b/p", typeFifo, 0o644, ""⟩ []).2
      = none ∧
    getNode (extractTarEntry ["tmp", "dest"]
      ⟨"a/b/p", typeFifo, 0o644, ""⟩ []).1 ["tmp", "dest", "a", "b"]
      = some Node.dir := by
  have h := @c10_parents_created ["tmp", "dest"] ⟨"a/b/p", typeFifo, 0o644, ""⟩
    [] _ (by right; right; right; right; rfl) rfl
  constructor
  · rw [h.1]
  · rw [h.1]
    exact h.2 ["tmp", "dest", "a", "b"] (by decide)

/-- C4 counterexample: a layer holds a whiteout whose removal fails and then
a regular entry `y`.  The run reports success, yet `y` was never written —
the traversal did not continue with the remaining entries of the stream, it
silently abandoned the layer (`return nil`). -/
theorem c4_counterexample :
    (asDirectory (fun p => decide (p = ["tmp", "dest", "x"])) ["tmp", "dest"]
      [[⟨".wh.x", typeReg, 0, ""⟩, ⟨"y", typeReg, 0o600, "c"⟩]] []).2
      = none ∧
    getNode (asDirectory (fun p => decide (p = ["tmp", "dest", "x"]))
      ["tmp", "dest"]
      [[⟨".wh.x", typeReg, 0, ""⟩, ⟨"y", typeReg, 0o600, "c"⟩]] []).1
      ["tmp", "dest", "y"] = none :=
  ⟨rfl, rfl⟩

/-- C4 amended: a failed whiteout removal is non-fatal for the run but ends
the current layer immediately — the remaining entries of that stream are
skipped and the map and tree are left as they were; when the removal
succeeds (in particular when the target is already absent) the traversal
records the whiteout and continues with the remaining entries. -/
theorem c4_whiteout_removal_failure {fail : Path → Bool} {root : Path}
    {hdr : Header} {rest : List Header} {fm : List String} {t : Tree}
    (hw : hasWhMarker (baseOf (hydrateFilepath root hdr.name)) = true) :
    (fail (whTargetOf root hdr) = true →
      writeEntries fail root (hdr :: rest) fm t = ⟨fm, t, none⟩) ∧
    (fail (whTargetOf root hdr) = false →
      writeEntries fail root (hdr :: rest) fm t =
        writeEntries fail root rest
          (baseOf (hydrateFilepath root hdr.name) :: fm)
          (removeAllT t (whTargetOf root hdr))) :=
  ⟨fun hf => writeEntries_wh_fail hw hf, fun hf => writeEntries_wh_ok hw hf⟩

/-- C4 amended witness: with a removal failure injected at /tmp/dest/x the
two-entry layer returns success with nothing processed; without failures the
whiteout is recorded and the layer continues past it. -/
theorem c4_whiteout_removal_failure_w :
    writeEntries (fun p => decide (p = ["tmp", "dest", "x"])) ["tmp", "dest"]
      [⟨".wh.x", typeReg, 0, ""⟩, ⟨"y", typeReg, 0o600, "c"⟩] [] []
      = ⟨[], [], none⟩ ∧
    writeEntries noFail ["tmp", "dest"] [⟨".wh.x", typeReg, 0, ""⟩] []
      [(["tmp", "dest", "x"], Node.file "v" 0o666)]
      = writeEntries noFail ["tmp", "dest"] [] [".wh.x"]
          (removeAllT [(["tmp", "dest", "x"], Node.file "v" 0o666)]
            ["tmp", "dest", "x"]) := by
  constructor
  · exact (c4_whiteout_removal_failure (by decide)).1 (by decide)
  · exact (c4_whiteout_removal_failure (by decide)).2 rfl

theorem isFileAt_chain {t : Tree} {qs : List Path} {q : Path}
    (h : isFileAt t q = false) : isFileAt (mkdirChain t qs) q = false := by
  have hch := getNode_mkdirChain qs t q
  by_cases hm : q ∈ qs ∧ getNode t q = none
  · simp [isFileAt, hch, hm]
  · rw [if_neg hm] at hch
    simpa [isFileAt, hch] using h

theorem isFileAt_set_other {t : Tree} {p q : Path} {n : Node}
    (h : isFileAt t q = false) (hne : p ≠ q) :
    isFileAt (setNode t p n) q = false := by
  have hs := getNode_setNode t p n q
  rw [if_neg hne] at hs
  simpa [isFileAt, hs] using h

/-- C7: when regular-file entries of two different layers write the same
path with no whiteout for it, the layer processed last in traversal order —
the older layer, since traversal runs newest-to-oldest — provides the final
on-disk content and mode. -/
theorem c7_last_processed_wins {root : Path} {name cN cO : String} {mN mO : Nat}
    (hp : root <+: hydrateFilepath root name)
    (hpr : hydrateFilepath root name ≠ root)
    (hw : hasWhMarker (baseOf (hydrateFilepath root name)) = false)
    (hs : inWhiteoutDir [name] (hydrateFilepath root name) = false) :
    (asDirectory noFail root
      [[⟨name, typeReg, mO, cO⟩], [⟨name, typeReg, mN, cN⟩]] []).2 = none ∧
    getNode (asDirectory noFail root
      [[⟨name, typeReg, mO, cO⟩], [⟨name, typeReg, mN, cN⟩]] []).1
      (hydrateFilepath root name) = some (.file cO (permModeOf mO)) := by
  have hc0 : (ppfx root).any (isFileAt ([] : Tree)) = false := by
    rw [List.any_eq_false]
    intro q hq
    simp [isFileAt, getNode]
  have hm0 : mkdirAll ([] : Tree) root = .ok (mkdirChain [] (ppfx root)) :=
    mkdirAll_ok_of_any_false hc0
  have hstart : asDirectory noFail root
      [[⟨name, typeReg, mO, cO⟩], [⟨name, typeReg, mN, cN⟩]] []
      = runLayers noFail root
          [[⟨name, typeReg, mN, cN⟩], [⟨name, typeReg, mO, cO⟩]] []
          (mkdirChain [] (ppfx root)) := by
    have hrm : removeAllT ([] : Tree) root = [] := rfl
    simp [asDirectory, removeAllR, noFail, hrm, hm0]
  have hanyS0 : (ppfx (hydrateFilepath root name).dropLast).any
      (isFileAt (mkdirChain [] (ppfx root))) = false := by
    rw [List.any_eq_false]
    intro q hq
    simp only [Bool.not_eq_true]
    exact isFileAt_chain rfl
  have hnS0 : getNode (mkdirChain [] (ppfx root)) (hydrateFilepath root name)
      = none := by
    rw [getNode_mkdirChain]
    simp [not_mem_ppfx_of_strict hp hpr, getNode]
  have hL1 := @writeEntries_single_reg_fresh root ⟨name, typeReg, mN, cN⟩
    [] (mkdirChain [] (ppfx root)) rfl hp hpr hw
    (inWhiteoutDir_nil _) hanyS0 hnS0
  rw [hstart]
  simp only [runLayers, hL1]
  set T1 := setNode (mkdirChain (mkdirChain [] (ppfx root))
      (ppfx (hydrateFilepath root name).dropLast))
    (hydrateFilepath root name) (Node.file cN (permModeOf mN)) with hT1
  have hne : hydrateFilepath root name ≠ [] := ne_nil_of_strict hp hpr
  have hanyT1 : (ppfx (hydrateFilepath root name).dropLast).any
      (isFileAt T1) = false := by
    rw [List.any_eq_false]
    intro q hq
    have hle := length_le_of_mem_ppfx hq
    have hdl : (hydrateFilepath root name).dropLast.length
        = (hydrateFilepath root name).length - 1 := by simp
    have hpos : 0 < (hydrateFilepath root name).length := List.length_pos.2 hne
    have hqne : hydrateFilepath root name ≠ q := by
      intro h
      rw [← h] at hle
      omega
    simp only [Bool.not_eq_true, hT1]
    exact isFileAt_set_other (isFileAt_chain (isFileAt_chain rfl)) hqne
  have hnT1 : getNode T1 (hydrateFilepath root name)
      = some (Node.file cN (permModeOf mN)) := by
    rw [hT1, getNode_setNode]
    simp
  have hs' : inWhiteoutDir ([name] ++ []) (hydrateFilepath root name)
      = false := by
    simpa using hs
  have hL2 := @writeEntries_single_reg_replace root ⟨name, typeReg, mO, cO⟩
    ([name] ++ []) T1 cN (permModeOf mN) rfl hp hpr hw hs' hanyT1 hnT1
  simp only [runLayers, hL2]
  constructor
  · trivial
  · rw [getNode_setNode]
    simp

/-- C7 witness: layer 1 (older) writes /etc/conf with "v1" and layer 2
(newer) writes it with "v2"; the final content is "v1", the older layer's,
because it is processed last. -/
theorem c7_last_processed_wins_w :
    getNode (asDirectory noFail ["tmp", "dest"]
      [[⟨"etc/conf", typeReg, 0o644, "v1"⟩],
       [⟨"etc/conf", typeReg, 0o644, "v2"⟩]] []).1
      ["tmp", "dest", "etc", "conf"] = some (Node.file "v1" 0o644) := by
  have h := (@c7_last_processed_wins ["tmp", "dest"] "etc/conf" "v2" "v1"
    0o644 0o644 (by decide) (by decide) (by decide) (by decide)).2
  exact h.trans (by decide)

/-- C9 counterexample: a layer whose entries escape the destination root via
`..` leaves state outside the root that feeds back into the next run: the
first materialization of this stack succeeds and writes /tmp/dest/inside,
while the second run over the identical stack and destination aborts while
creating parent directories (a file now sits at /tmp/x) and produces a tree
without /tmp/dest/inside — re-running is not idempotent. -/
theorem c9_counterexample :
    (asDirectory noFail ["tmp", "dest"]
      [[⟨"../x/y", typeReg, 0o600, "p"⟩, ⟨"../x", typeReg, 0o600, "q"⟩,
        ⟨"inside", typeReg, 0o600, "z"⟩]] []).2 = none ∧
    getNode (asDirectory noFail ["tmp", "dest"]
      [[⟨"../x/y", typeReg, 0o600, "p"⟩, ⟨"../x", typeReg, 0o600, "q"⟩,
        ⟨"inside", typeReg, 0o600, "z"⟩]] []).1 ["tmp", "dest", "inside"]
      = some (Node.file "z" 0o666) ∧
    (asDirectory noFail ["tmp", "dest"]
      [[⟨"../x/y", typeReg, 0o600, "p"⟩, ⟨"../x", typeReg, 0o600, "q"⟩,
        ⟨"inside", typeReg, 0o600, "z"⟩]]
      (asDirectory noFail ["tmp", "dest"]
        [[⟨"../x/y", typeReg, 0o600, "p"⟩, ⟨"../x", typeReg, 0o600, "q"⟩,
          ⟨"inside", typeReg, 0o600, "z"⟩]] []).1).2
      = some "creating parent directories" ∧
    getNode (asDirectory noFail ["tmp", "dest"]
      [[⟨"../x/y", typeReg, 0o600, "p"⟩, ⟨"../x", typeReg, 0o600, "q"⟩,
        ⟨"inside", typeReg, 0o600, "z"⟩]]
      (asDirectory noFail ["tmp", "dest"]
        [[⟨"../x/y", typeReg, 0o600, "p"⟩, ⟨"../x", typeReg, 0o600, "q"⟩,
          ⟨"inside", typeReg, 0o600, "z"⟩]] []).1).1
      ["tmp", "dest", "inside"] = none :=
  ⟨rfl, rfl, rfl, rfl⟩

/-- C9 amended: running the materializer twice with the same layer stack and
destination yields the same error outcome and byte-identical trees under the
destination root, provided every entry's normalized path resolves strictly
inside the root and every whiteout target resolves inside it — the wipe of
the destination at run start erases all within-root state, but state left
outside the root by escaping entries can feed back into a second run. -/
theorem c9_rerun_idempotent {root : Path} {layers : List (List Header)}
    {t : Tree} (hr : root ≠ [])
    (hg : ∀ l ∈ layers, ∀ h ∈ l, GoodEntry root h) :
    (asDirectory noFail root layers t).2
      = (asDirectory noFail root layers
          (asDirectory noFail root layers t).1).2 ∧
    ∀ p, root <+: p →
      getNode (asDirectory noFail root layers t).1 p
        = getNode (asDirectory noFail root layers
            (asDirectory noFail root layers t).1).1 p := by
  have hrm : ∀ s : Tree, removeAllR noFail s root = .ok (removeAllT s root) := by
    intro s
    simp [removeAllR, noFail]
  by_cases hc : (ppfx root).any (isFileAt (removeAllT t root)) = true
  · have hm1 : mkdirAll (removeAllT t root) root = .error () :=
      mkdirAll_error_of_any_true hc
    have h1 : asDirectory noFail root layers t
        = (removeAllT t root, some "Creating output directory") := by
      simp [asDirectory, hrm, hm1]
    have hidem := removeAllT_idem t root
    have hm2 : mkdirAll (removeAllT (removeAllT t root) root) root
        = .error () := by
      rw [hidem]
      exact hm1
    have h2 : asDirectory noFail root layers (removeAllT t root)
        = (removeAllT (removeAllT t root) root,
            some "Creating output directory") := by
      simp [asDirectory, hrm, hm2]
    constructor
    · simp only [h1, h2]
    · intro p hp
      simp only [h1, h2, hidem]
  · have hc' : (ppfx root).any (isFileAt (removeAllT t root)) = false := by
      simpa using hc
    have hm1 : mkdirAll (removeAllT t root) root
        = .ok (mkdirChain (removeAllT t root) (ppfx root)) :=
      mkdirAll_ok_of_any_false hc'
    have h1 : asDirectory noFail root layers t
        = runLayers noFail root layers.reverse []
            (mkdirChain (removeAllT t root) (ppfx root)) := by
      simp [asDirectory, hrm, hm1]
    have hanc1 : AncDirs root (mkdirChain (removeAllT t root) (ppfx root)) :=
      setup_anc hc'
    have hrev : ∀ l ∈ layers.reverse, ∀ h ∈ l, GoodEntry root h := by
      intro l hl
      exact hg l (List.mem_reverse.1 hl)
    obtain ⟨-, -, hancR1, -⟩ := runLayers_sim layers.reverse []
      (mkdirChain (removeAllT t root) (ppfx root))
      (mkdirChain (removeAllT t root) (ppfx root)) hrev (fun p _ => rfl)
      hanc1 hanc1
    have hc2 : (ppfx root).any (isFileAt (removeAllT
        (runLayers noFail root layers.reverse []
          (mkdirChain (removeAllT t root) (ppfx root))).1 root)) = false := by
      rw [List.any_eq_false]
      intro q hq
      rcases mem_ppfx.1 hq with ⟨hqn, hqr⟩
      simp only [Bool.not_eq_true]
      by_cases he : q = root
      · subst he
        exact isFileAt_none (getNode_wipe_under List.prefix_rfl)
      · have hnr : ¬ root <+: q :=
          fun h => he (prefix_prefix_eq_root hqr h)
        have hgq : getNode (removeAllT
            (runLayers noFail root layers.reverse []
              (mkdirChain (removeAllT t root) (ppfx root))).1 root) q
            = getNode (runLayers noFail root layers.reverse []
                (mkdirChain (removeAllT t root) (ppfx root))).1 q := by
          rw [getNode_removeAllT]
          simp [hnr]
        exact isFileAt_dir (hgq.trans (hancR1 q hqr he hqn))
    have hm2 : mkdirAll (removeAllT
        (runLayers noFail root layers.reverse []
          (mkdirChain (removeAllT t root) (ppfx root))).1 root) root
        = .ok (mkdirChain (removeAllT
            (runLayers noFail root layers.reverse []
              (mkdirChain (removeAllT t root) (ppfx root))).1 root)
            (ppfx root)) :=
      mkdirAll_ok_of_any_false hc2
    have h2 : asDirectory noFail root layers
        (runLayers noFail root layers.reverse []
          (mkdirChain (removeAllT t root) (ppfx root))).1
        = runLayers noFail root layers.reverse []
            (mkdirChain (removeAllT
              (runLayers noFail root layers.reverse []
                (mkdirChain (removeAllT t root) (ppfx root))).1 root)
              (ppfx root)) := by
      simp [asDirectory, hrm, hm2]
    have hanc2 : AncDirs root (mkdirChain (removeAllT
        (runLayers noFail root layers.reverse []
          (mkdirChain (removeAllT t root) (ppfx root))).1 root)
        (ppfx root)) := setup_anc hc2
    have hA : Agree root (mkdirChain (removeAllT t root) (ppfx root))
        (mkdirChain (removeAllT
          (runLayers noFail root layers.reverse []
            (mkdirChain (removeAllT t root) (ppfx root))).1 root)
          (ppfx root)) := by
      intro p hp
      rw [setup_under hr hp, setup_under hr hp]
    obtain ⟨herr, hAfin, -, -⟩ := runLayers_sim layers.reverse [] _ _ hrev hA
      hanc1 hanc2
    constructor
    · simp only [h1, h2]
      exact herr
    · intro p hp
      simp only [h1, h2]
      exact hAfin p hp

/-- C9 amended witness: for a stack whose single entry stays inside the
destination root, the first and second runs agree at the entry's path. -/
theorem c9_rerun_idempotent_w :
    getNode (asDirectory noFail ["tmp", "dest"]
      [[⟨"a/b.txt", typeReg, 0o600, "x"⟩]] []).1 ["tmp", "dest", "a", "b.txt"]
      = getNode (asDirectory noFail ["tmp", "dest"]
          [[⟨"a/b.txt", typeReg, 0o600, "x"⟩]]
          (asDirectory noFail ["tmp", "dest"]
            [[⟨"a/b.txt", typeReg, 0o600, "x"⟩]] []).1).1
        ["tmp", "dest", "a", "b.txt"] := by
  have h := (@c9_rerun_idempotent ["tmp", "dest"]
    [[⟨"a/b.txt", typeReg, 0o600, "x"⟩]] [] (by decide) (by decide)).2
  exact h ["tmp", "dest", "a", "b.txt"] (by decide)

end Imgpkg
